import Mathlib

/-!
Verification of the CoPixie / DCTracker correspondence pipeline.

The definitions below are a shallow embedding of the per-cell core of the
program: track-table loading, footprint building (disk and mask strategies),
per-channel conflict resolution, the merged-table retention rule, static
expansion, and colocalization run detection.  Physical positions are modelled
as rational numbers, mask rasters as nested lists with Python indexing
semantics (negative indices wrap, out-of-range lookups fail), and pandas
tables as plain Lean lists of rows.
-/

/-- A parsed track point: particle id, frame index and physical position. -/
structure TrackPt where
  id : ℤ
  frame : ℕ
  x : ℚ
  y : ℚ
deriving DecidableEq

/-- One pixel attributed to one particle at one frame. -/
structure FootRow where
  x : ℤ
  y : ℤ
  id : ℤ
  frame : ℕ
deriving DecidableEq

/-- Rounding used throughout the source via the Python builtin round, which
rounds to the nearest integer with ties going to the even integer. -/
def pyRound (q : ℚ) : ℤ :=
  let f := ⌊q⌋
  if q - f < 1/2 then f
  else if (1:ℚ)/2 < q - f then f + 1
  else if f % 2 = 0 then f else f + 1

/-- Rounding rule the specification mandates: round half away from zero. -/
def roundHalfAway (q : ℚ) : ℤ :=
  if 0 ≤ q then ⌊q + 1/2⌋ else -⌊-q + 1/2⌋

/-- Integer range list mirroring the Python range builtin: the integers from
a (inclusive) to b (exclusive), empty when b is not greater than a. -/
def zrange (a b : ℤ) : List ℤ :=
  (List.range (b - a).toNat).map (fun (i : ℕ) => a + (i : ℤ))

/-- The square of offsets produced by itertools.product over two copies of
range(-r, r+1), in product order. -/
def squareOffsets (r : ℤ) : List (ℤ × ℤ) :=
  (zrange (-r) (r + 1)).flatMap (fun dx => (zrange (-r) (r + 1)).map (fun dy => (dx, dy)))

/-- Embedding of centroid_to_table: the disk (no-mask) footprint strategy.
For each track point the physical position is divided by the pixel size and
rounded with the Python round builtin, and one row is emitted for every
offset pair of the square neighbourhood, with no bounds checks. -/
def centroid_to_table (tracks : List TrackPt) (radius pixel_size : ℚ) : List FootRow :=
  let radius_px := pyRound (radius / pixel_size)
  let sphere := squareOffsets radius_px
  tracks.flatMap (fun tr =>
    let cx := pyRound (tr.x / pixel_size)
    let cy := pyRound (tr.y / pixel_size)
    sphere.map (fun d => ⟨cx + d.1, cy + d.2, tr.id, tr.frame⟩))

/-- The disk strategy as the specification words it, with the rounding rule
the specification mandates (round half away from zero).  Used only to compare
against the embedding of the source. -/
def centroid_to_table_specRound (tracks : List TrackPt) (radius pixel_size : ℚ) : List FootRow :=
  let radius_px := roundHalfAway (radius / pixel_size)
  let sphere := squareOffsets radius_px
  tracks.flatMap (fun tr =>
    let cx := roundHalfAway (tr.x / pixel_size)
    let cy := roundHalfAway (tr.y / pixel_size)
    sphere.map (fun d => ⟨cx + d.1, cy + d.2, tr.id, tr.frame⟩))

lemma zrange_mem (a b z : ℤ) : z ∈ zrange a b ↔ a ≤ z ∧ z < b := by
  constructor
  · intro h
    rcases List.mem_map.mp h with ⟨i, hi, rfl⟩
    have hlt := List.mem_range.mp hi
    omega
  · rintro ⟨h1, h2⟩
    refine List.mem_map.mpr ⟨(z - a).toNat, List.mem_range.mpr ?_, ?_⟩
    · omega
    · omega

lemma zrange_nodup (a b : ℤ) : (zrange a b).Nodup := by
  refine List.Nodup.map ?_ (List.nodup_range _)
  intro i j h
  have h2 : a + (i : ℤ) = a + (j : ℤ) := h
  omega

lemma squareOffsets_mem (r : ℤ) (d : ℤ × ℤ) :
    d ∈ squareOffsets r ↔ (-r ≤ d.1 ∧ d.1 ≤ r) ∧ (-r ≤ d.2 ∧ d.2 ≤ r) := by
  unfold squareOffsets
  rcases d with ⟨dx, dy⟩
  simp only [List.mem_flatMap, List.mem_map, zrange_mem]
  constructor
  · rintro ⟨x, hx, y, hy, h⟩
    cases h
    constructor <;> omega
  · rintro ⟨h1, h2⟩
    exact ⟨dx, by omega, dy, by omega, rfl⟩

lemma squareOffsets_nodup (r : ℤ) : (squareOffsets r).Nodup := by
  unfold squareOffsets
  refine List.nodup_flatMap.mpr ⟨?_, ?_⟩
  · intro dx _
    refine List.Nodup.map ?_ (zrange_nodup _ _)
    intro i j h
    exact congrArg Prod.snd h
  · refine (zrange_nodup _ _).imp ?_
    intro dx dy hne
    simp only [Function.onFun, List.Disjoint, List.mem_map]
    rintro ⟨a, b⟩ ⟨u, _, hu⟩ ⟨v, _, hv⟩
    cases hu; cases hv
    exact hne rfl

lemma squareOffsets_zero : squareOffsets 0 = [(0, 0)] := by decide

lemma pyRound_tie (n : ℤ) : pyRound ((n : ℚ) + 1/2) = if n % 2 = 0 then n else n + 1 := by
  have hf : ⌊(n : ℚ) + 1/2⌋ = n := by
    rw [add_comm, Int.floor_add_int]
    norm_num
  simp only [pyRound, hf, add_sub_cancel_left]
  norm_num

/-- C5 (counterexample): the source rounds physical coordinates with the
Python round builtin, which sends 1/2 to 0 and 5/2 to 2 (ties to even),
whereas the claimed round-half-away-from-zero rule sends them to 1 and 3.
At a single track point with position (1/2, 5/2), radius 0 and pixel size 1,
the table the code produces differs from the table the claim mandates. -/
theorem C5_counterexample_rounding :
    centroid_to_table [⟨0, 0, 1/2, 5/2⟩] 0 1 = [⟨0, 2, 0, 0⟩]
    ∧ centroid_to_table_specRound [⟨0, 0, 1/2, 5/2⟩] 0 1 = [⟨1, 3, 0, 0⟩]
    ∧ ([(⟨0, 2, 0, 0⟩ : FootRow)] ≠ [(⟨1, 3, 0, 0⟩ : FootRow)]) := by
  refine ⟨?_, ?_, by decide⟩
  · simp [centroid_to_table, squareOffsets_zero, pyRound]
    norm_num [Int.fract]
  · simp [centroid_to_table_specRound, roundHalfAway]
    norm_num
    simp [squareOffsets_zero]

/-- C5 (amended): for every track point of a disk-strategy channel the
builder converts position and radius to the pixel grid with the Python
round builtin (round half to even, witnessed by the last conjunct), and
emits exactly one footprint row for each integer offset pair (dx, dy) with
dx, dy between -r_px and r_px, a square neighbourhood with no bounds check:
the table is the concatenation of the per-point tables, each per-point
table has no duplicate rows, and a row belongs to it exactly when it has
the point's particle id and frame and its pixel lies in the square. -/
theorem C5_amended_disk_square (tracks : List TrackPt) (radius pixel_size : ℚ) :
    centroid_to_table tracks radius pixel_size
      = tracks.flatMap (fun tr => centroid_to_table [tr] radius pixel_size)
    ∧ (∀ tr : TrackPt, ∀ row : FootRow,
        row ∈ centroid_to_table [tr] radius pixel_size ↔
          (row.id = tr.id ∧ row.frame = tr.frame ∧
            -(pyRound (radius / pixel_size)) ≤ row.x - pyRound (tr.x / pixel_size) ∧
            row.x - pyRound (tr.x / pixel_size) ≤ pyRound (radius / pixel_size) ∧
            -(pyRound (radius / pixel_size)) ≤ row.y - pyRound (tr.y / pixel_size) ∧
            row.y - pyRound (tr.y / pixel_size) ≤ pyRound (radius / pixel_size)))
    ∧ (∀ tr : TrackPt, (centroid_to_table [tr] radius pixel_size).Nodup)
    ∧ (∀ n : ℤ, pyRound ((n : ℚ) + 1/2) = if n % 2 = 0 then n else n + 1) := by
  refine ⟨?_, ?_, ?_, pyRound_tie⟩
  · simp [centroid_to_table]
  · intro tr row
    constructor
    · intro h
      have h2 : row ∈ (squareOffsets (pyRound (radius / pixel_size))).map
          (fun d => (⟨pyRound (tr.x / pixel_size) + d.1,
                      pyRound (tr.y / pixel_size) + d.2, tr.id, tr.frame⟩ : FootRow)) := by
        simpa [centroid_to_table] using h
      rcases List.mem_map.mp h2 with ⟨d, hd, rfl⟩
      have hb := (squareOffsets_mem _ d).mp hd
      dsimp only
      exact ⟨rfl, rfl, by omega, by omega, by omega, by omega⟩
    · rintro ⟨hid, hframe, h1, h2, h3, h4⟩
      have hmem : (row.x - pyRound (tr.x / pixel_size), row.y - pyRound (tr.y / pixel_size))
          ∈ squareOffsets (pyRound (radius / pixel_size)) :=
        (squareOffsets_mem _ _).mpr ⟨⟨h1, h2⟩, ⟨h3, h4⟩⟩
      have : row ∈ (squareOffsets (pyRound (radius / pixel_size))).map
          (fun d => (⟨pyRound (tr.x / pixel_size) + d.1,
                      pyRound (tr.y / pixel_size) + d.2, tr.id, tr.frame⟩ : FootRow)) := by
        refine List.mem_map.mpr ⟨_, hmem, ?_⟩
        cases row
        simp_all
      simpa [centroid_to_table] using this
  · intro tr
    have : (centroid_to_table [tr] radius pixel_size)
        = (squareOffsets (pyRound (radius / pixel_size))).map
          (fun d => (⟨pyRound (tr.x / pixel_size) + d.1,
                      pyRound (tr.y / pixel_size) + d.2, tr.id, tr.frame⟩ : FootRow)) := by
      simp [centroid_to_table]
    rw [this]
    refine List.Nodup.map ?_ (squareOffsets_nodup _)
    intro d1 d2 h
    have hx := congrArg FootRow.x h
    have hy := congrArg FootRow.y h
    simp only at hx hy
    rcases d1 with ⟨a, b⟩
    rcases d2 with ⟨c, e⟩
    simp only at hx hy
    have : a = c := by omega
    have : b = e := by omega
    simp_all

/-- A channel as the frame-count loop of the merger sees it: the static flag
and the parsed track table of the channel (track files are assumed to carry
at least one data row, as every real tracking export does). -/
structure Channel where
  static : Bool
  tracks : List TrackPt
deriving DecidableEq

/-- Error raised by the embedded frame-count loop when the Python local
variable named tracks is read before any assignment. -/
inductive FrameCountErr
  | nameError
deriving DecidableEq

/-- Largest frame index of a track table, mirroring the pandas max over the
FRAME column of a nonempty table. -/
def maxFrame (ts : List TrackPt) : ℕ :=
  (ts.map (fun tr => tr.frame)).foldr max 0

/-- Embedding of the frame-count loop of the merger.  The source parses the
track file into the local variable tracks only for non-static channels, but
appends tracks.max plus one for every channel, so a static channel reads the
variable left over from the last non-static channel, and a static channel
with no preceding non-static channel reads an unbound variable. -/
def fcLoop (tracksVar : Option (List TrackPt)) (acc : List ℕ) :
    List Channel → Except FrameCountErr (List ℕ)
  | [] => .ok acc
  | c :: rest =>
    let tv := if c.static then tracksVar else some c.tracks
    match tv with
    | none => .error .nameError
    | some ts => fcLoop tv (acc ++ [maxFrame ts + 1]) rest

/-- Embedding of the frame-count computation of the merger: run the loop,
then take the maximum of the accumulated values, or 1 when no channel
appended a value. -/
def frame_count_code (channels : List Channel) : Except FrameCountErr ℕ :=
  match fcLoop none [] channels with
  | .error e => .error e
  | .ok [] => .ok 1
  | .ok (x :: xs) => .ok (xs.foldl max x)

/-- Frame count as the specification states it: one plus the maximum frame
index among the track points of the non-static channels, and 1 when there is
no non-static channel. -/
def frame_count_spec (channels : List Channel) : ℕ :=
  let ns := channels.filter (fun c => !c.static)
  if ns.isEmpty then 1
  else ((ns.flatMap (fun c => c.tracks)).map (fun tr => tr.frame)).foldr max 0 + 1

/-- C3 (code bug): the append of the frame-count loop sits outside the
non-static guard, so a cell whose first channel is static reads the unbound
local variable tracks and the run dies with NameError instead of computing
the frame count the specification states; a cell with only static channels
therefore never reaches the branch that would return 1.  On a cell whose
only channel is static the code errors while the specification gives 1, and
on a static-then-dynamic cell the code errors while the specification gives
one plus the maximum non-static frame.  On a cell that starts with a
non-static channel the loop does compute the specified value, as the last
conjunct shows on a concrete cell. -/
theorem C3_code_bug_frame_count :
    frame_count_code [⟨true, [⟨0, 0, 0, 0⟩]⟩] = .error .nameError
    ∧ frame_count_spec [⟨true, [⟨0, 0, 0, 0⟩]⟩] = 1
    ∧ frame_count_code [⟨true, [⟨0, 0, 0, 0⟩]⟩, ⟨false, [⟨0, 7, 0, 0⟩]⟩] = .error .nameError
    ∧ frame_count_spec [⟨true, [⟨0, 0, 0, 0⟩]⟩, ⟨false, [⟨0, 7, 0, 0⟩]⟩] = 8
    ∧ frame_count_code [⟨false, [⟨0, 5, 0, 0⟩]⟩, ⟨true, [⟨0, 0, 0, 0⟩]⟩] = .ok 6
    ∧ frame_count_spec [⟨false, [⟨0, 5, 0, 0⟩]⟩, ⟨true, [⟨0, 0, 0, 0⟩]⟩] = 6 := by
  refine ⟨rfl, ?_, rfl, ?_, rfl, ?_⟩ <;> rfl

/-- Embedding of make_static: keep only the footprint rows at frame 0. -/
def make_static (table : List FootRow) : List FootRow :=
  table.filter (fun r => r.frame == 0)

/-- Embedding of expand_static_table: concatenate frame_count copies of the
table and overwrite the frame column blockwise, so the copy at block i
carries frame i. -/
def expand_static_table (table : List FootRow) (frame_count : ℕ) : List FootRow :=
  (List.range frame_count).flatMap (fun i => table.map (fun r => { r with frame := i }))

/-- C8: a static channel keeps only its frame-0 footprint rows and replicates
them across all frame_count frames: a row belongs to the expanded table
exactly when its frame is below frame_count and it is a frame-0 row of the
original table with the frame overwritten, and the expanded table has
frame_count copies of every surviving row. -/
theorem C8_static_replication (table : List FootRow) (n : ℕ) :
    (∀ row : FootRow, row ∈ expand_static_table (make_static table) n ↔
      (row.frame < n ∧ ∃ r ∈ table, r.frame = 0 ∧ row = { r with frame := row.frame }))
    ∧ (expand_static_table (make_static table) n).length = n * (make_static table).length := by
  constructor
  · intro row
    constructor
    · intro h
      simp only [expand_static_table, make_static, List.mem_flatMap, List.mem_range,
        List.mem_map, List.mem_filter, beq_iff_eq] at h
      rcases h with ⟨i, hi, r, ⟨hr, h0⟩, rfl⟩
      exact ⟨hi, r, hr, h0, rfl⟩
    · rintro ⟨hlt, r, hr, h0, heq⟩
      simp only [expand_static_table, make_static, List.mem_flatMap, List.mem_range,
        List.mem_map, List.mem_filter, beq_iff_eq]
      exact ⟨row.frame, hlt, r, ⟨hr, h0⟩, heq.symm⟩
  · simp [expand_static_table, List.length_flatMap, Function.comp_def, List.length_map,
      List.map_const']

/-- A row of the merged correspondence table after the pixel columns are
dropped: the frame and one nullable particle id per channel, in channel
order. -/
structure CorrRow where
  frame : ℕ
  ids : List (Option ℤ)
deriving DecidableEq

/-- Number of rows of a frame group whose id column i holds the integer v.
This mirrors the pandas value_counts of the column within the group; null
entries are never counted. -/
def colCount (g : List CorrRow) (i : ℕ) (v : ℤ) : ℕ :=
  (g.filter (fun r => r.ids.getD i none == some v)).length

/-- Embedding of the per-row retention test of the merger: a row passes when
it has no null id (the negation of the isna row mask) or when at least one
of its columns holds a value that occurs exactly once in that column within
the frame group (the disjunction of the per-column uniqueness masks). -/
def keepRow (g : List CorrRow) (r : CorrRow) : Bool :=
  (!r.ids.any (fun v => v.isNone)) ||
    ((List.range r.ids.length).any (fun i =>
      match r.ids.getD i none with
      | some v => colCount g i v == 1
      | none => false))

/-- Embedding of the retention pass over one frame group. -/
def retentionFilter (g : List CorrRow) : List CorrRow :=
  g.filter (keepRow g)

/-- The frame group of a correspondence table: its rows at the given frame,
in table order, as the pandas groupby on the frame column yields them. -/
def frameGroup (tbl : List CorrRow) (f : ℕ) : List CorrRow :=
  tbl.filter (fun r => r.frame == f)

lemma length_le_one_of_all_eq {α : Type} (l : List α) (a : α)
    (h : ∀ x ∈ l, x = a) (hnd : l.Nodup) : l.length ≤ 1 := by
  cases l with
  | nil => simp
  | cons x t =>
    cases t with
    | nil => simp
    | cons y u =>
      have hx : x = a := h x (by simp)
      have hy : y = a := h y (by simp)
      subst hx
      rw [hy] at hnd
      simp at hnd

lemma colCount_eq_one_iff (g : List CorrRow) (r : CorrRow) (i : ℕ) (v : ℤ)
    (hnd : g.Nodup) (hr : r ∈ g) (hv : r.ids.getD i none = some v) :
    colCount g i v = 1 ↔ ∀ s ∈ g, s ≠ r → s.ids.getD i none ≠ some v := by
  have hrf : r ∈ g.filter (fun s => s.ids.getD i none == some v) :=
    List.mem_filter.mpr ⟨hr, by rw [beq_iff_eq]; exact hv⟩
  constructor
  · intro h1 s hs hne hsv
    have hsf : s ∈ g.filter (fun s => s.ids.getD i none == some v) :=
      List.mem_filter.mpr ⟨hs, by rw [beq_iff_eq]; exact hsv⟩
    rcases List.length_eq_one.mp h1 with ⟨x, hx⟩
    rw [hx] at hrf hsf
    simp at hrf hsf
    exact hne (hsf.trans hrf.symm)
  · intro hall
    have hle : (g.filter (fun s => s.ids.getD i none == some v)).length ≤ 1 := by
      refine length_le_one_of_all_eq _ r ?_ (hnd.filter _)
      intro s hs
      rcases List.mem_filter.mp hs with ⟨hsg, hsv⟩
      by_contra hne
      exact hall s hsg hne (by simpa using hsv)
    have hge : 1 ≤ (g.filter (fun s => s.ids.getD i none == some v)).length :=
      List.length_pos.mpr (List.ne_nil_of_mem hrf)
    unfold colCount
    omega

/-- C1: in every frame group of a merged correspondence table (a table
without duplicate rows, as the merger has already dropped duplicates), a row
with no null id is always kept by the retention pass, and a row with one or
more null ids is kept exactly when at least one of its non-null id values
appears in no other row of the group in the same column. -/
theorem C1_retention (tbl : List CorrRow) (f : ℕ) (r : CorrRow)
    (hnd : tbl.Nodup) (hr : r ∈ frameGroup tbl f) :
    r ∈ retentionFilter (frameGroup tbl f) ↔
      ((∀ v ∈ r.ids, v.isSome = true) ∨
        ∃ i : ℕ, ∃ v : ℤ, r.ids.getD i none = some v ∧
          ∀ s ∈ frameGroup tbl f, s ≠ r → s.ids.getD i none ≠ some v) := by
  have hgnd : (frameGroup tbl f).Nodup := hnd.filter _
  rw [retentionFilter, List.mem_filter]
  constructor
  · rintro ⟨-, hkeep⟩
    have h := hkeep
    simp only [keepRow, Bool.or_eq_true] at h
    rcases h with h | h
    · left
      intro v hv
      rw [Bool.not_eq_true', List.any_eq_false] at h
      have h3 := h v hv
      cases v
      · simp at h3
      · simp
    · right
      rw [List.any_eq_true] at h
      rcases h with ⟨i, -, hi⟩
      rcases hvi : r.ids.getD i none with - | v
      · rw [hvi] at hi
        simp at hi
      · rw [hvi] at hi
        simp only [beq_iff_eq] at hi
        exact ⟨i, v, hvi, (colCount_eq_one_iff _ r i v hgnd hr hvi).mp hi⟩
  · intro h
    refine ⟨hr, ?_⟩
    simp only [keepRow, Bool.or_eq_true]
    rcases h with h | ⟨i, v, hvi, hall⟩
    · left
      rw [Bool.not_eq_true', List.any_eq_false]
      intro v hv
      have h2 := h v hv
      cases v
      · simp at h2
      · simp
    · right
      rw [List.any_eq_true]
      have hilt : i < r.ids.length := by
        by_contra hge
        rw [List.getD_eq_default] at hvi
        · exact Option.noConfusion hvi
        · omega
      refine ⟨i, List.mem_range.mpr hilt, ?_⟩
      rw [hvi]
      simp only [beq_iff_eq]
      exact (colCount_eq_one_iff _ r i v hgnd hr hvi).mpr hall

/-- C1 (witness): a concrete frame group in which a partial row is kept
because its value 3 is unique within its column in the frame. -/
theorem C1_retention_witness :
    (⟨0, [some 3, none]⟩ : CorrRow) ∈
      retentionFilter (frameGroup [⟨0, [some 1, some 2]⟩, ⟨0, [some 3, none]⟩] 0) :=
  (C1_retention [⟨0, [some 1, some 2]⟩, ⟨0, [some 3, none]⟩] 0 ⟨0, [some 3, none]⟩
      (by decide) (by decide)).mpr
    (Or.inr ⟨0, 3, by decide, by decide⟩)

/-- Run splitting of one identity group, mirroring the split of the source
on the cumulative sum of the frame differences greater than one: s is the
start of the current run, cur the frame of the previous row, and a new run
begins when the next frame exceeds cur plus one. -/
def runsGo (s cur : ℕ) : List ℕ → List (ℕ × ℕ)
  | [] => [(s, cur)]
  | f :: rest => if cur + 1 < f then (s, cur) :: runsGo f f rest else runsGo s f rest

/-- Intervals of maximal consecutive-frame runs of a frame sequence, as the
Colocalize pass computes them: first frame of each run paired with the frame
of the last row of the run. -/
def runs : List ℕ → List (ℕ × ℕ)
  | [] => []
  | f :: rest => runsGo f f rest

/-- The frames at which a given identity tuple appears in a correspondence
table, in table order, as the groupby on the id columns with dropna false
yields them (null entries compare equal as group keys). -/
def groupFrames (tbl : List CorrRow) (k : List (Option ℤ)) : List ℕ :=
  (tbl.filter (fun r => r.ids == k)).map (fun r => r.frame)

/-- The identity tuples of a correspondence table, in first-appearance
order; the pandas groupby sorts its keys, but only the set of groups
matters to the claims below. -/
def tupleKeys (tbl : List CorrRow) : List (List (Option ℤ)) :=
  (tbl.map (fun r => r.ids)).dedup

/-- Embedding of the Colocalize pass: for every identity tuple group of the
correspondence table, split the frame sequence of the group into maximal
consecutive runs and emit one interval per run, tagged with the tuple. -/
def colocalize (tbl : List CorrRow) : List (List (Option ℤ) × ℕ × ℕ) :=
  (tupleKeys tbl).flatMap (fun k => (runs (groupFrames tbl k)).map (fun se => (k, se)))

lemma runsGo_cover (L : List ℕ) (rest : List ℕ) :
    ∀ (s cur : ℕ), s ≤ cur →
      (∀ f, s ≤ f → f ≤ cur → f ∈ L) → (∀ f ∈ rest, f ∈ L) →
      List.Chain' (· < ·) (cur :: rest) →
      ∀ p ∈ runsGo s cur rest, p.1 ≤ p.2 ∧ ∀ f, p.1 ≤ f → f ≤ p.2 → f ∈ L := by
  induction rest with
  | nil =>
    intro s cur hs hseg _ _ p hp
    simp only [runsGo, List.mem_singleton] at hp
    subst hp
    exact ⟨hs, hseg⟩
  | cons f rest ih =>
    intro s cur hs hseg hrest hch p hp
    have hcf : cur < f := (List.chain'_cons.mp hch).1
    have hch2 : List.Chain' (· < ·) (f :: rest) := (List.chain'_cons.mp hch).2
    by_cases hgap : cur + 1 < f
    · simp only [runsGo, if_pos hgap, List.mem_cons] at hp
      rcases hp with hp | hp
      · subst hp
        exact ⟨hs, hseg⟩
      · exact ih f f le_rfl
          (fun x h1 h2 => by
            have : x = f := by omega
            exact this ▸ hrest f (by simp))
          (fun x hx => hrest x (by simp [hx])) hch2 p hp
    · have hf : f = cur + 1 := by omega
      simp only [runsGo, if_neg hgap] at hp
      exact ih s f (by omega)
        (fun x h1 h2 => by
          by_cases hxf : x ≤ cur
          · exact hseg x h1 hxf
          · have : x = f := by omega
            exact this ▸ hrest f (by simp))
        (fun x hx => hrest x (by simp [hx])) hch2 p hp

lemma runsGo_ge_gap (rest : List ℕ) :
    ∀ (s cur : ℕ), s ≤ cur → List.Chain' (· < ·) (cur :: rest) →
      (∀ p ∈ runsGo s cur rest, s ≤ p.1)
      ∧ (runsGo s cur rest).Pairwise (fun p q => p.2 + 1 < q.1) := by
  induction rest with
  | nil =>
    intro s cur _ _
    constructor
    · intro p hp
      simp only [runsGo, List.mem_singleton] at hp
      subst hp
      exact le_rfl
    · simp [runsGo]
  | cons f rest ih =>
    intro s cur hs hch
    have hcf : cur < f := (List.chain'_cons.mp hch).1
    have hch2 : List.Chain' (· < ·) (f :: rest) := (List.chain'_cons.mp hch).2
    by_cases hgap : cur + 1 < f
    · rcases ih f f le_rfl hch2 with ⟨hge, hpw⟩
      constructor
      · intro p hp
        simp only [runsGo, if_pos hgap, List.mem_cons] at hp
        rcases hp with hp | hp
        · subst hp
          exact le_rfl
        · have := hge p hp
          omega
      · simp only [runsGo, if_pos hgap]
        refine List.Pairwise.cons ?_ hpw
        intro q hq
        have := hge q hq
        dsimp only
        omega
    · rcases ih s f (by omega) hch2 with ⟨hge, hpw⟩
      constructor
      · intro p hp
        simp only [runsGo, if_neg hgap] at hp
        exact hge p hp
      · simp only [runsGo, if_neg hgap]
        exact hpw

lemma runsGo_sum (rest : List ℕ) :
    ∀ (s cur : ℕ), s ≤ cur → List.Chain' (· < ·) (cur :: rest) →
      ((runsGo s cur rest).map (fun p => p.2 + 1 - p.1)).sum = (cur + 1 - s) + rest.length := by
  induction rest with
  | nil =>
    intro s cur hs _
    simp [runsGo]
  | cons f rest ih =>
    intro s cur hs hch
    have hcf : cur < f := (List.chain'_cons.mp hch).1
    have hch2 : List.Chain' (· < ·) (f :: rest) := (List.chain'_cons.mp hch).2
    by_cases hgap : cur + 1 < f
    · simp only [runsGo, if_pos hgap, List.map_cons, List.sum_cons]
      rw [ih f f le_rfl hch2]
      simp only [List.length_cons]
      omega
    · have hf : f = cur + 1 := by omega
      simp only [runsGo, if_neg hgap]
      rw [ih s f (by omega) hch2]
      simp only [List.length_cons]
      omega

lemma flatMap_filter_key (G : List (Option ℤ) → List (ℕ × ℕ))
    (keys : List (List (Option ℤ))) (k : List (Option ℤ)) (hnd : keys.Nodup) :
    (keys.flatMap (fun q => (G q).map (fun se => (q, se)))).filter (fun p => p.1 == k)
      = if k ∈ keys then (G k).map (fun se => (k, se)) else [] := by
  induction keys with
  | nil => simp
  | cons q rest ih =>
    rw [List.flatMap_cons, List.filter_append, ih (List.nodup_cons.mp hnd).2]
    by_cases hq : q = k
    · subst hq
      have hknot : q ∉ rest := (List.nodup_cons.mp hnd).1
      rw [if_neg hknot, if_pos (List.mem_cons_self q rest), List.append_nil]
      refine List.filter_eq_self.mpr ?_
      intro p hp
      rcases List.mem_map.mp hp with ⟨se, -, rfl⟩
      simp
    · have hnil : ((G q).map (fun se => (q, se))).filter (fun p => p.1 == k) = [] := by
        refine List.filter_eq_nil_iff.mpr ?_
        intro p hp
        rcases List.mem_map.mp hp with ⟨se, -, rfl⟩
        simp [hq]
      rw [hnil, List.nil_append]
      by_cases hk : k ∈ rest
      · rw [if_pos hk, if_pos (List.mem_cons_of_mem q hk)]
      · rw [if_neg hk, if_neg ?_]
        intro hc
        rcases List.mem_cons.mp hc with hc | hc
        · exact hq hc.symm
        · exact hk hc

lemma runs_cover (l : List ℕ) (hch : l.Chain' (· < ·)) :
    ∀ p ∈ runs l, p.1 ≤ p.2 ∧ ∀ f, p.1 ≤ f → f ≤ p.2 → f ∈ l := by
  cases l with
  | nil => simp [runs]
  | cons a rest =>
    intro p hp
    refine runsGo_cover (a :: rest) rest a a le_rfl ?_ ?_ hch p hp
    · intro x h1 h2
      have hxa : x = a := le_antisymm h2 h1
      subst hxa
      simp
    · intro x hx
      simp [hx]

lemma runs_gap (l : List ℕ) (hch : l.Chain' (· < ·)) :
    (runs l).Pairwise (fun p q => p.2 + 1 < q.1) := by
  cases l with
  | nil => simp [runs]
  | cons a rest => exact (runsGo_ge_gap rest a a le_rfl hch).2

lemma runs_sum (l : List ℕ) (hch : l.Chain' (· < ·)) :
    ((runs l).map (fun p => p.2 + 1 - p.1)).sum = l.length := by
  cases l with
  | nil => simp [runs]
  | cons a rest =>
    have := runsGo_sum rest a a le_rfl hch
    rw [runs, this]
    simp only [List.length_cons]
    omega

lemma chain'_lt_nodup (l : List ℕ) (hch : l.Chain' (· < ·)) : l.Nodup :=
  (List.chain'_iff_pairwise.mp hch).imp (fun h => Nat.ne_of_lt h)

lemma coloc_filter (tbl : List CorrRow) (k : List (Option ℤ)) :
    (colocalize tbl).filter (fun p => p.1 == k)
      = (runs (groupFrames tbl k)).map (fun se => (k, se)) := by
  unfold colocalize
  rw [flatMap_filter_key (fun q => runs (groupFrames tbl q)) (tupleKeys tbl) k
    (by unfold tupleKeys; exact List.nodup_dedup _)]
  by_cases hk : k ∈ tupleKeys tbl
  · rw [if_pos hk]
  · rw [if_neg hk]
    have hg : groupFrames tbl k = [] := by
      unfold groupFrames
      rw [List.filter_eq_nil_iff.mpr ?_]
      · rfl
      · intro r hr hc
        refine hk ?_
        unfold tupleKeys
        rw [List.mem_dedup]
        exact List.mem_map.mpr ⟨r, hr, by simpa using hc⟩
    rw [hg]
    simp [runs]

/-- C4: for every emitted colocalization interval of a tuple whose frames in
the correspondence table are strictly increasing (as the sorted and
deduplicated merger output guarantees), the start frame does not exceed the
end frame and the tuple appears in the table at every frame of the interval;
and the intervals of the tuple are pairwise separated by a gap of at least
one missing frame. -/
theorem C4_interval_invariants (tbl : List CorrRow) (k : List (Option ℤ))
    (hchain : (groupFrames tbl k).Chain' (· < ·)) :
    (∀ s e : ℕ, (k, s, e) ∈ colocalize tbl →
        s ≤ e ∧ ∀ f : ℕ, s ≤ f → f ≤ e → ∃ r ∈ tbl, r.ids = k ∧ r.frame = f)
    ∧ ((colocalize tbl).filter (fun p => p.1 == k)).Pairwise
        (fun p q => p.2.2 + 1 < q.2.1) := by
  constructor
  · intro s e hmem
    have hfilt : (k, s, e) ∈ (colocalize tbl).filter (fun p => p.1 == k) :=
      List.mem_filter.mpr ⟨hmem, by simp⟩
    rw [coloc_filter] at hfilt
    rcases List.mem_map.mp hfilt with ⟨se, hse, heq⟩
    have hse2 : se = (s, e) := (Prod.mk.injEq _ _ _ _ ▸ congrArg Prod.snd heq)
    subst hse2
    have hc := runs_cover _ hchain (s, e) hse
    refine ⟨hc.1, fun f h1 h2 => ?_⟩
    have hf := hc.2 f h1 h2
    unfold groupFrames at hf
    rcases List.mem_map.mp hf with ⟨r, hr, hfr⟩
    rcases List.mem_filter.mp hr with ⟨hrt, hrk⟩
    exact ⟨r, hrt, by simpa using hrk, hfr⟩
  · rw [coloc_filter]
    rw [List.pairwise_map]
    exact runs_gap _ hchain

/-- C4 (witness): the invariants hold on a concrete three-row table whose
tuple (1) appears at frames 0, 1 and 3, producing the separated intervals
(0, 1) and (3, 3). -/
theorem C4_interval_invariants_witness :
    (∀ s e : ℕ,
        ([some 1], s, e) ∈ colocalize [⟨0, [some 1]⟩, ⟨1, [some 1]⟩, ⟨3, [some 1]⟩] →
        s ≤ e ∧ ∀ f : ℕ, s ≤ f → f ≤ e →
          ∃ r ∈ [(⟨0, [some 1]⟩ : CorrRow), ⟨1, [some 1]⟩, ⟨3, [some 1]⟩],
            r.ids = [some 1] ∧ r.frame = f)
    ∧ ((colocalize [⟨0, [some 1]⟩, ⟨1, [some 1]⟩, ⟨3, [some 1]⟩]).filter
        (fun p => p.1 == [some 1])).Pairwise (fun p q => p.2.2 + 1 < q.2.1) :=
  C4_interval_invariants [⟨0, [some 1]⟩, ⟨1, [some 1]⟩, ⟨3, [some 1]⟩] [some 1]
    (by
      have h : groupFrames [⟨0, [some 1]⟩, ⟨1, [some 1]⟩, ⟨3, [some 1]⟩] [some 1]
          = [0, 1, 3] := by decide
      rw [h]
      simp [List.chain'_cons])

/-- C7: for every identity tuple whose frames in the correspondence table
are strictly increasing, the sum of the interval lengths (end minus start
plus one) over the emitted intervals of that tuple equals the number of
distinct frames at which the tuple appears in the table. -/
theorem C7_roundtrip (tbl : List CorrRow) (k : List (Option ℤ))
    (hchain : (groupFrames tbl k).Chain' (· < ·)) :
    (((colocalize tbl).filter (fun p => p.1 == k)).map
        (fun p => p.2.2 + 1 - p.2.1)).sum
      = (groupFrames tbl k).dedup.length := by
  rw [coloc_filter, List.map_map,
    List.dedup_eq_self.mpr (chain'_lt_nodup _ hchain)]
  have hsum := runs_sum (groupFrames tbl k) hchain
  rw [← hsum]
  rfl

/-- C7 (witness): on the concrete table with tuple (1) at frames 0, 1 and 3
the interval lengths 2 and 1 sum to the three distinct frames. -/
theorem C7_roundtrip_witness :
    (((colocalize [⟨0, [some 1]⟩, ⟨1, [some 1]⟩, ⟨3, [some 1]⟩]).filter
        (fun p => p.1 == [some 1])).map (fun p => p.2.2 + 1 - p.2.1)).sum
      = (groupFrames [⟨0, [some 1]⟩, ⟨1, [some 1]⟩, ⟨3, [some 1]⟩] [some 1]).dedup.length :=
  C7_roundtrip [⟨0, [some 1]⟩, ⟨1, [some 1]⟩, ⟨3, [some 1]⟩] [some 1]
    (by
      have h : groupFrames [⟨0, [some 1]⟩, ⟨1, [some 1]⟩, ⟨3, [some 1]⟩] [some 1]
          = [0, 1, 3] := by decide
      rw [h]
      simp [List.chain'_cons])

/-- A delimited track file after the csv reader has split it: the header
line and the data rows, each a list of string fields. -/
structure CSVFile where
  header : List String
  rows : List (List String)
deriving DecidableEq

/-- The columns the loader requests from the csv reader. -/
def requiredCols : List String := ["TRACK_ID", "POSITION_X", "POSITION_Y", "FRAME"]

/-- The field of a row under a named header column, empty when the column or
the field is missing. -/
def fieldOf (header : List String) (row : List String) (name : String) : String :=
  match header.findIdx? (fun c => c == name) with
  | some i => row.getD i ""
  | none => ""

/-- The Python str.isnumeric test restricted to ASCII content: nonempty and
all digits.  This is the test the loader applies to the track id field. -/
def pyIsNumeric (s : String) : Bool :=
  !s.isEmpty && s.toList.all Char.isDigit

/-- Value of a digit string. -/
def digitsVal (cs : List Char) : ℕ :=
  cs.foldl (fun a c => 10 * a + (c.toNat - 48)) 0

/-- Model of pandas to_numeric on one plain decimal field: an optional
minus sign, an integer part and an optional fractional part after a dot;
anything else fails, as to_numeric raises on unparseable content. -/
def toNumeric (s : String) : Option ℚ :=
  let cs := s.toList
  let neg := cs.head? = some '-'
  let body := if neg then cs.tail else cs
  let ip := body.takeWhile (fun c => c != '.')
  let rest := body.dropWhile (fun c => c != '.')
  match rest with
  | [] =>
    if ip.all Char.isDigit ∧ ip ≠ [] then
      some (if neg then -(digitsVal ip : ℚ) else (digitsVal ip : ℚ))
    else none
  | _ :: fp =>
    if ip.all Char.isDigit ∧ fp.all Char.isDigit ∧ (ip ≠ [] ∨ fp ≠ []) then
      let v : ℚ := (digitsVal ip : ℚ) + (digitsVal fp : ℚ) / (10 : ℚ) ^ fp.length
      some (if neg then -v else v)
    else none

/-- A loaded track record: the track id field as read (the loader never
coerces it) and the numeric position and frame columns. -/
structure RawTrack where
  track_id : String
  px : ℚ
  py : ℚ
  frame : ℚ
deriving DecidableEq

/-- Failure modes of the loader.  The pandas calls of the source raise the
builtin ValueError, both for missing usecols and for unparseable numeric
content; the class named MalformedTrackFile appears only in the
specification and nowhere in the code, and is present here only so that the
claim about which error is raised can be stated. -/
inductive LoadErr
  | valueError
  | malformedTrackFile
deriving DecidableEq

/-- Sequence a column of coerced values, failing when any entry fails, as
the columnwise pandas to_numeric does. -/
def optColumn : List (Option ℚ) → Option (List ℚ)
  | [] => some []
  | none :: _ => none
  | some q :: rest => (optColumn rest).map (fun qs => q :: qs)

/-- Embedding of parse_trackmate: request the four required columns from the
csv reader (a missing column raises), drop the rows whose track id field is
not numeric, then coerce the three coordinate columns columnwise (an
unparseable field raises) and reassemble the records by position. -/
def parse_trackmate (file : CSVFile) : Except LoadErr (List RawTrack) :=
  if requiredCols.all (fun c => file.header.contains c) then
    let kept := file.rows.filter (fun row => pyIsNumeric (fieldOf file.header row "TRACK_ID"))
    match optColumn (kept.map (fun row => toNumeric (fieldOf file.header row "POSITION_X"))),
          optColumn (kept.map (fun row => toNumeric (fieldOf file.header row "POSITION_Y"))),
          optColumn (kept.map (fun row => toNumeric (fieldOf file.header row "FRAME"))) with
  | some xs, some ys, some fs =>
      .ok ((kept.zip (xs.zip (ys.zip fs))).map (fun p =>
        ⟨fieldOf file.header p.1 "TRACK_ID", p.2.1, p.2.2.1, p.2.2.2⟩))
  | _, _, _ => .error .valueError
  else .error .valueError

/-- One row coerced the way the specification describes the loader output:
the id field kept as read, the other three fields numeric. -/
def coerceRow (header : List String) (row : List String) : Option RawTrack :=
  match toNumeric (fieldOf header row "POSITION_X"),
        toNumeric (fieldOf header row "POSITION_Y"),
        toNumeric (fieldOf header row "FRAME") with
  | some x, some y, some f => some ⟨fieldOf header row "TRACK_ID", x, y, f⟩
  | _, _, _ => none

/-- Rowwise coercion of a list of rows, failing when any row fails. -/
def rowsSpec (header : List String) : List (List String) → Option (List RawTrack)
  | [] => some []
  | row :: rest =>
    match coerceRow header row, rowsSpec header rest with
    | some r, some rs => some (r :: rs)
    | _, _ => none

/-- The track loader as the specification words it: fail when a required
column is absent, otherwise keep the rows whose particle id field is an
integer literal and coerce the remaining columns rowwise. -/
def track_loader_spec (file : CSVFile) : Except LoadErr (List RawTrack) :=
  if requiredCols.all (fun c => file.header.contains c) then
    match rowsSpec file.header
        (file.rows.filter (fun row => pyIsNumeric (fieldOf file.header row "TRACK_ID"))) with
    | some recs => .ok recs
    | none => .error .valueError
  else .error .valueError

lemma colwise_eq_rowwise (header : List String) (l : List (List String)) :
    (match optColumn (l.map (fun row => toNumeric (fieldOf header row "POSITION_X"))),
           optColumn (l.map (fun row => toNumeric (fieldOf header row "POSITION_Y"))),
           optColumn (l.map (fun row => toNumeric (fieldOf header row "FRAME"))) with
     | some xs, some ys, some fs =>
         Except.ok ((l.zip (xs.zip (ys.zip fs))).map (fun p =>
           (⟨fieldOf header p.1 "TRACK_ID", p.2.1, p.2.2.1, p.2.2.2⟩ : RawTrack)))
     | _, _, _ => (Except.error LoadErr.valueError : Except LoadErr (List RawTrack)))
    = (match rowsSpec header l with
       | some recs => Except.ok recs
       | none => Except.error LoadErr.valueError) := by
  induction l with
  | nil => rfl
  | cons row rest ih =>
    cases hx : toNumeric (fieldOf header row "POSITION_X") with
    | none =>
      simp only [List.map_cons, optColumn, rowsSpec, coerceRow, hx]
    | some x =>
      cases hy : toNumeric (fieldOf header row "POSITION_Y") with
      | none =>
        simp only [List.map_cons, optColumn, rowsSpec, coerceRow, hx, hy]
        cases optColumn (List.map (fun r => toNumeric (fieldOf header r "POSITION_X")) rest) <;>
          rfl
      | some y =>
        cases hf : toNumeric (fieldOf header row "FRAME") with
        | none =>
          simp only [List.map_cons, optColumn, rowsSpec, coerceRow, hx, hy, hf]
          cases optColumn (List.map (fun r => toNumeric (fieldOf header r "POSITION_X")) rest) with
          | none => rfl
          | some xs =>
            cases optColumn (List.map (fun r => toNumeric (fieldOf header r "POSITION_Y")) rest) <;>
              rfl
        | some f =>
          simp only [List.map_cons, optColumn, rowsSpec, coerceRow, hx, hy, hf]
          cases hxs : optColumn (List.map (fun r => toNumeric (fieldOf header r "POSITION_X")) rest) with
          | none =>
            rw [hxs] at ih
            cases hrs : rowsSpec header rest with
            | none => rfl
            | some rs =>
              rw [hrs] at ih
              exact absurd ih (by simp)
          | some xs =>
            rw [hxs] at ih
            cases hys : optColumn (List.map (fun r => toNumeric (fieldOf header r "POSITION_Y")) rest) with
            | none =>
              rw [hys] at ih
              cases hrs : rowsSpec header rest with
              | none => rfl
              | some rs =>
                rw [hrs] at ih
                exact absurd ih (by simp)
            | some ys =>
              rw [hys] at ih
              cases hfs : optColumn (List.map (fun r => toNumeric (fieldOf header r "FRAME")) rest) with
              | none =>
                rw [hfs] at ih
                cases hrs : rowsSpec header rest with
                | none => rfl
                | some rs =>
                  rw [hrs] at ih
                  exact absurd ih (by simp)
              | some fs =>
                rw [hfs] at ih
                cases hrs : rowsSpec header rest with
                | none =>
                  rw [hrs] at ih
                  exact absurd ih (by simp)
                | some rs =>
                  rw [hrs] at ih
                  have hlist : (rest.zip (xs.zip (ys.zip fs))).map (fun p =>
                      ({ track_id := fieldOf header p.1 "TRACK_ID", px := p.2.1,
                         py := p.2.2.1, frame := p.2.2.2 } : RawTrack)) = rs := by
                    simpa using ih
                  dsimp only [Option.map]
                  simp only [List.zip_cons_cons, List.map_cons]
                  rw [hlist]

/-- C9 (counterexample): on a file missing the FRAME column the loader
fails with the pandas builtin ValueError; no class named MalformedTrackFile
exists anywhere in the code, so the failure is not a MalformedTrackFile. -/
theorem C9_counterexample_error_class :
    parse_trackmate ⟨["TRACK_ID", "POSITION_X", "POSITION_Y"], [["0", "1", "2"]]⟩
      = .error .valueError
    ∧ LoadErr.valueError ≠ LoadErr.malformedTrackFile := by
  exact ⟨rfl, by decide⟩

/-- C9 (amended): the loader equals its specification-worded description:
it fails (with the pandas ValueError, the only failure class the code can
raise) when a required column is absent, and otherwise returns the data
rows, discarding every row whose particle id field is not an integer
literal and coercing the position and frame columns to numbers, failing
when a kept field does not parse. -/
theorem C9_amended_loader (file : CSVFile) :
    parse_trackmate file = track_loader_spec file := by
  unfold parse_trackmate track_loader_spec
  by_cases h : requiredCols.all (fun c => file.header.contains c) = true
  · rw [if_pos h, if_pos h]
    exact colwise_eq_rowwise file.header _
  · rw [if_neg h, if_neg h]

/-- Python list indexing: a nonnegative index within the length reads
directly, a negative index within minus the length counts from the end, and
anything else raises IndexError, modelled as none. -/
def pyGet {α : Type} (l : List α) (i : ℤ) : Option α :=
  if 0 ≤ i then l.get? i.toNat
  else if 0 ≤ i + l.length then l.get? (i + l.length).toNat
  else none

/-- A mask stack: a list of frames, each a list of rows of pixel values. -/
abbrev Mask3 := List (List (List ℕ))

/-- The lookup mask[t][y][x] of the source with Python indexing semantics
at every level: negative indices wrap, out-of-range lookups fail. -/
def maskAt (mask : Mask3) (t : ℤ) (y x : ℤ) : Option ℕ :=
  (pyGet mask t).bind (fun plane => (pyGet plane y).bind (fun row => pyGet row x))

/-- The neighbour offsets of the source, including the offset (0, 0). -/
def neighbourDist : List (ℤ × ℤ) := [(-1, 0), (0, -1), (0, 0), (0, 1), (1, 0)]

/-- The neighbour pixels of a pixel, offsets added componentwise. -/
def neighbours (v : ℤ × ℤ) : List (ℤ × ℤ) :=
  neighbourDist.map (fun d => (v.1 + d.1, v.2 + d.2))

/-- All coordinates (x, y) at which a Python lookup into the given frame of
the mask succeeds.  The flood frontier only ever holds such coordinates, so
their number bounds the number of loop iterations. -/
def validPix (mask : Mask3) (t : ℤ) : List (ℤ × ℤ) :=
  match pyGet mask t with
  | none => []
  | some plane =>
    (zrange (-(plane.length : ℤ)) plane.length).flatMap (fun y =>
      match pyGet plane y with
      | none => []
      | some row => (zrange (-(row.length : ℤ)) row.length).map (fun x => (x, y)))

/-- One step of the flood fill of mask_to_table, with explicit fuel: pop a
frontier pixel, add it to the completed list, and push every neighbour that
is not already completed or pending and whose mask lookup succeeds with a
nonzero value; a failed neighbour lookup is skipped.  The source keeps the
frontier and completed collections as unordered sets; this embedding pops
the oldest frontier entry, which fixes one of the orders the sets may
produce without changing the completed set. -/
def floodLoop (mask : Mask3) (t : ℤ) :
    ℕ → List (ℤ × ℤ) → List (ℤ × ℤ) → Option (List (ℤ × ℤ))
  | 0, _, _ => none
  | _ + 1, [], completed => some completed
  | fuel + 1, v :: rest, completed =>
    let completed2 := v :: completed
    let fresh := (neighbours v).filter (fun n =>
      !completed2.contains n && !rest.contains n
        && ((maskAt mask t n.2 n.1).getD 0 != 0))
    floodLoop mask t fuel (rest ++ fresh) completed2

/-- Failure modes of the embedded mask strategy: the InvalidCentroidError of
the source, and a marker for fuel exhaustion of the embedded loop, which the
termination theorem shows unreachable. -/
inductive DCErr
  | invalidCentroid
  | outOfFuel
deriving DecidableEq

/-- Footprint of one track point in the dynamic mask variant of the source:
the mask is read at the centroid pixel, an IndexError there raises
InvalidCentroidError, a zero value leaves the frontier empty, and otherwise
the flood fill runs from the seed. -/
def pointFootprint (mask : Mask3) (t : ℤ) (px py : ℤ) : Except DCErr (List (ℤ × ℤ)) :=
  match maskAt mask t py px with
  | none => .error .invalidCentroid
  | some v =>
    match floodLoop mask t ((validPix mask t).length + 1)
        (if v = 0 then [] else [(px, py)]) [] with
    | none => .error .outOfFuel
    | some completed => .ok completed

/-- The key a footprint row is grouped under when overlaps are resolved. -/
def rowKey (r : FootRow) : ℤ × ℤ × ℕ := (r.x, r.y, r.frame)

/-- The rows of a footprint table under a given key, in table order. -/
def rowsAt (df : List FootRow) (k : ℤ × ℤ × ℕ) : List FootRow :=
  df.filter (fun r => rowKey r == k)

/-- The rows whose key appears exactly once, as drop_duplicates keep false
retains them. -/
def uniqueRows (df : List FootRow) : List FootRow :=
  df.filter (fun r => (rowsAt df (rowKey r)).length == 1)

/-- The rows whose key appears more than once, as duplicated keep false
marks them. -/
def dupRows (df : List FootRow) : List FootRow :=
  df.filter (fun r => (rowsAt df (rowKey r)).length != 1)

/-- Squared distance between a footprint pixel and the seed centroid of its
track at its frame.  The source compares math.sqrt of this value; sqrt is
strictly monotone, so sorting by the squared value sorts identically. -/
def dist2 (cent : ℕ → ℤ → ℤ × ℤ) (r : FootRow) : ℤ :=
  (r.x - (cent r.frame r.id).1) ^ 2 + (r.y - (cent r.frame r.id).2) ^ 2

/-- Lexicographic order on group keys, the order in which the pandas groupby
iterates the duplicated keys. -/
def keyLE (a b : ℤ × ℤ × ℕ) : Prop :=
  a.1 < b.1 ∨ (a.1 = b.1 ∧ (a.2.1 < b.2.1 ∨ (a.2.1 = b.2.1 ∧ a.2.2 ≤ b.2.2)))

instance : DecidableRel keyLE := fun a b => by
  unfold keyLE
  infer_instance

/-- The distinct keys claimed by two or more rows, in groupby order. -/
def dupKeys (df : List FootRow) : List (ℤ × ℤ × ℕ) :=
  List.insertionSort keyLE ((dupRows df).map rowKey).dedup

/-- Embedding of the overlap resolution of mask_to_table: keep the rows
with unclaimed keys, then for every contested key sort its claims by the
distance to their seed centroids with a stable sort and keep the first.
The pandas sort is stable in effect on these small groups, so equal
distances leave the earlier table row first. -/
def resolveOverlaps (df : List FootRow) (cent : ℕ → ℤ → ℤ × ℤ) : List FootRow :=
  uniqueRows df ++
    (dupKeys df).flatMap (fun k =>
      (List.insertionSort (fun a b => dist2 cent a ≤ dist2 cent b)
        (rowsAt (dupRows df) k)).take 1)

/-- Per-track footprint construction of mask_to_table: pixel coordinates by
Python rounding, then the seeded flood fill; the first failing track aborts
the channel. -/
def buildRows (mask : Mask3) (pixel_size : ℚ) : List TrackPt → Except DCErr (List FootRow)
  | [] => .ok []
  | tr :: rest =>
    match pointFootprint mask (tr.frame : ℤ)
        (pyRound (tr.x / pixel_size)) (pyRound (tr.y / pixel_size)) with
    | .error e => .error e
    | .ok completed =>
      match buildRows mask pixel_size rest with
      | .error e => .error e
      | .ok rows => .ok ((completed.map (fun c => FootRow.mk c.1 c.2 tr.id tr.frame)) ++ rows)

/-- The centroid dictionary of mask_to_table: pixel position of the last
track row with the given frame and id; absent keys never occur for rows the
table holds. -/
def centLookup (tracks : List TrackPt) (pixel_size : ℚ) (t : ℕ) (i : ℤ) : ℤ × ℤ :=
  match (tracks.filter (fun tr => tr.frame == t && tr.id == i)).getLast? with
  | some tr => (pyRound (tr.x / pixel_size), pyRound (tr.y / pixel_size))
  | none => (0, 0)

/-- Embedding of mask_to_table for a dynamic mask channel: build every
track point footprint, then resolve contested pixels. -/
def mask_to_table (tracks : List TrackPt) (mask : Mask3) (pixel_size : ℚ) :
    Except DCErr (List FootRow) :=
  match buildRows mask pixel_size tracks with
  | .error e => .error e
  | .ok df => .ok (resolveOverlaps df (centLookup tracks pixel_size))

lemma pyGet_bounds {α : Type} (l : List α) (i : ℤ) (a : α) (h : pyGet l i = some a) :
    -(l.length : ℤ) ≤ i ∧ i < l.length := by
  unfold pyGet at h
  by_cases h0 : 0 ≤ i
  · rw [if_pos h0] at h
    have := List.get?_eq_some.mp h
    rcases this with ⟨hlt, -⟩
    omega
  · rw [if_neg h0] at h
    by_cases h1 : 0 ≤ i + (l.length : ℤ)
    · rw [if_pos h1] at h
      omega
    · rw [if_neg h1] at h
      exact Option.noConfusion h

lemma maskAt_mem_validPix (mask : Mask3) (t : ℤ) (y x : ℤ) (v : ℕ)
    (h : maskAt mask t y x = some v) : (x, y) ∈ validPix mask t := by
  unfold maskAt at h
  cases hp : pyGet mask t with
  | none => rw [hp] at h; exact Option.noConfusion h
  | some plane =>
    rw [hp] at h
    simp only [Option.bind] at h
    cases hr : pyGet plane y with
    | none => rw [hr] at h; exact Option.noConfusion h
    | some row =>
      rw [hr] at h
      have hyb := pyGet_bounds plane y row hr
      have hxb := pyGet_bounds row x v h
      unfold validPix
      rw [hp]
      refine List.mem_flatMap.mpr ⟨y, (zrange_mem _ _ _).mpr ⟨hyb.1, hyb.2⟩, ?_⟩
      rw [hr]
      exact List.mem_map.mpr ⟨x, (zrange_mem _ _ _).mpr ⟨hxb.1, hxb.2⟩, rfl⟩

lemma neighbours_nodup (v : ℤ × ℤ) : (neighbours v).Nodup := by
  unfold neighbours neighbourDist
  refine List.Nodup.map ?_ (by decide)
  intro d1 d2 h
  rcases d1 with ⟨a, b⟩
  rcases d2 with ⟨c, e⟩
  have hx := congrArg Prod.fst h
  have hy := congrArg Prod.snd h
  simp only at hx hy
  have : a = c := by omega
  have : b = e := by omega
  simp_all

/-- The number of valid pixels not yet completed; the strictly decreasing
measure of the flood loop. -/
def freePix (mask : Mask3) (t : ℤ) (completed : List (ℤ × ℤ)) : ℕ :=
  ((validPix mask t).toFinset.filter (fun p => p ∉ completed)).card

lemma floodLoop_isSome (mask : Mask3) (t : ℤ) :
    ∀ (fuel : ℕ) (frontier completed : List (ℤ × ℤ)),
      frontier.Nodup →
      (∀ p ∈ frontier, p ∈ validPix mask t ∧ p ∉ completed) →
      freePix mask t completed < fuel →
      (floodLoop mask t fuel frontier completed).isSome = true := by
  intro fuel
  induction fuel with
  | zero =>
    intro frontier completed _ _ hfree
    exact absurd hfree (Nat.not_lt_zero _)
  | succ fuel ih =>
    intro frontier completed hnd hinv hfree
    cases frontier with
    | nil => simp [floodLoop]
    | cons v rest =>
      have hv := hinv v (List.mem_cons_self v rest)
      rw [floodLoop]
      set fresh := (neighbours v).filter (fun n =>
        !((v :: completed).contains n) && !rest.contains n
          && ((maskAt mask t n.2 n.1).getD 0 != 0)) with hfresh
      refine ih (rest ++ fresh) (v :: completed) ?_ ?_ ?_
      · refine List.Nodup.append ((List.nodup_cons.mp hnd).2) ((neighbours_nodup v).filter _) ?_
        intro a ha hafresh
        rw [hfresh] at hafresh
        rcases List.mem_filter.mp hafresh with ⟨-, hcond⟩
        simp only [Bool.and_eq_true, Bool.not_eq_true'] at hcond
        have hnotin : a ∉ rest := by simpa using hcond.1.2
        exact hnotin ha
      · intro p hp
        rcases List.mem_append.mp hp with hp2 | hp2
        · have h2 := hinv p (List.mem_cons_of_mem v hp2)
          refine ⟨h2.1, ?_⟩
          intro hc
          rcases List.mem_cons.mp hc with hc | hc
          · subst hc
            exact (List.nodup_cons.mp hnd).1 hp2
          · exact h2.2 hc
        · rw [hfresh] at hp2
          rcases List.mem_filter.mp hp2 with ⟨-, hcond⟩
          simp only [Bool.and_eq_true, Bool.not_eq_true'] at hcond
          constructor
          · have hnz := hcond.2
            rcases hm : maskAt mask t p.2 p.1 with - | w
            · rw [hm] at hnz
              simp at hnz
            · exact maskAt_mem_validPix mask t p.2 p.1 w hm
          · exact (by simpa using hcond.1.1 : p ∉ v :: completed)
      · have hlt : freePix mask t (v :: completed) < freePix mask t completed := by
          unfold freePix
          refine Finset.card_lt_card ?_
          constructor
          · intro p hp
            rcases Finset.mem_filter.mp hp with ⟨hpv, hpn⟩
            refine Finset.mem_filter.mpr ⟨hpv, ?_⟩
            intro hc
            exact hpn (List.mem_cons_of_mem v hc)
          · intro hsub
            have hvmem : v ∈ (validPix mask t).toFinset.filter (fun p => p ∉ completed) :=
              Finset.mem_filter.mpr ⟨List.mem_toFinset.mpr hv.1, hv.2⟩
            have := hsub hvmem
            rcases Finset.mem_filter.mp this with ⟨-, hvn⟩
            exact hvn (List.mem_cons_self v completed)
        omega

lemma pointFootprint_ne_outOfFuel (mask : Mask3) (t px py : ℤ) :
    pointFootprint mask t px py ≠ .error .outOfFuel := by
  unfold pointFootprint
  cases hm : maskAt mask t py px with
  | none => simp
  | some v =>
    have hsome : (floodLoop mask t ((validPix mask t).length + 1)
        (if v = 0 then [] else [(px, py)]) []).isSome = true := by
      refine floodLoop_isSome mask t _ _ [] ?_ ?_ ?_
      · by_cases hv : v = 0 <;> simp [hv]
      · intro p hp
        by_cases hv : v = 0
        · rw [if_pos hv] at hp
          exact absurd hp (List.not_mem_nil p)
        · rw [if_neg hv] at hp
          rcases List.mem_singleton.mp hp with rfl
          exact ⟨maskAt_mem_validPix mask t py px v hm, by simp⟩
      · have h1 : freePix mask t [] ≤ (validPix mask t).toFinset.card := by
          unfold freePix
          exact Finset.card_filter_le _ _
        have h2 : (validPix mask t).toFinset.card ≤ (validPix mask t).length :=
          List.toFinset_card_le _
        omega
    dsimp only
    cases hf : floodLoop mask t ((validPix mask t).length + 1)
        (if v = 0 then [] else [(px, py)]) [] with
    | none =>
      rw [hf] at hsome
      simp at hsome
    | some completed => simp

lemma buildRows_ne_outOfFuel (mask : Mask3) (ps : ℚ) :
    ∀ l : List TrackPt, buildRows mask ps l ≠ .error .outOfFuel := by
  intro l
  induction l with
  | nil => simp [buildRows]
  | cons tr rest ih =>
    cases hpf : pointFootprint mask (tr.frame : ℤ)
        (pyRound (tr.x / ps)) (pyRound (tr.y / ps)) with
    | error e =>
      have hne := pointFootprint_ne_outOfFuel mask (tr.frame : ℤ)
        (pyRound (tr.x / ps)) (pyRound (tr.y / ps))
      rw [hpf] at hne
      cases e with
      | invalidCentroid => simp [buildRows, hpf]
      | outOfFuel => exact absurd rfl hne
    | ok completed =>
      cases hbr : buildRows mask ps rest with
      | error e =>
        rw [hbr] at ih
        cases e with
        | invalidCentroid => simp [buildRows, hpf, hbr]
        | outOfFuel => exact absurd rfl ih
      | ok rows => simp [buildRows, hpf, hbr]

lemma mask_to_table_ne_outOfFuel (tracks : List TrackPt) (mask : Mask3) (ps : ℚ) :
    mask_to_table tracks mask ps ≠ .error .outOfFuel := by
  unfold mask_to_table
  cases hbr : buildRows mask ps tracks with
  | error e =>
    have := buildRows_ne_outOfFuel mask ps tracks
    rw [hbr] at this
    cases e with
    | invalidCentroid => simp
    | outOfFuel => exact absurd rfl this
  | ok df => simp

/-- C10: the flood fill of the mask strategy terminates on every finite
mask raster and every admissible frontier: a completed pixel is never put
back on the frontier, the frontier holds pairwise distinct pixels whose
lookups succeeded, so the number of valid pixels not yet completed bounds
the remaining iterations and the loop with that much fuel always reaches
the empty frontier; consequently neither a single point footprint nor the
whole channel table can ever report fuel exhaustion. -/
theorem C10_flood_termination (mask : Mask3) (t : ℤ) :
    (∀ frontier completed : List (ℤ × ℤ),
        frontier.Nodup →
        (∀ p ∈ frontier, p ∈ validPix mask t ∧ p ∉ completed) →
        (floodLoop mask t (freePix mask t completed + 1) frontier completed).isSome = true)
    ∧ (∀ px py : ℤ, pointFootprint mask t px py ≠ .error .outOfFuel)
    ∧ (∀ (tracks : List TrackPt) (pixel_size : ℚ),
        mask_to_table tracks mask pixel_size ≠ .error .outOfFuel) := by
  refine ⟨?_, ?_, ?_⟩
  · intro frontier completed hnd hinv
    exact floodLoop_isSome mask t _ frontier completed hnd hinv (Nat.lt_succ_self _)
  · intro px py
    exact pointFootprint_ne_outOfFuel mask t px py
  · intro tracks pixel_size
    exact mask_to_table_ne_outOfFuel tracks mask pixel_size

/-- C10 (witness): the loop terminates on a concrete one-pixel mask seeded
at its only pixel. -/
theorem C10_flood_termination_witness :
    (floodLoop [[[1]]] 0 (freePix [[[1]]] 0 [] + 1) [(0, 0)] []).isSome = true :=
  (C10_flood_termination [[[1]]] 0).1 [(0, 0)] [] (by decide) (by decide)

/-- C2 (counterexample): a track point whose centroid pixel is inside the
mask bounds but on a zero (background) value does not raise: the seed check
leaves the frontier empty and the per-cell computation returns an empty
footprint table, where the claim demands InvalidCentroidError. -/
theorem C2_counterexample_zero_centroid :
    mask_to_table [⟨0, 0, 0, 0⟩] [[[0]]] 1 = .ok []
    ∧ (Except.ok ([] : List FootRow)
        ≠ (Except.error DCErr.invalidCentroid : Except DCErr (List FootRow))) := by
  constructor
  · have hpy : pyRound ((0 : ℚ) / 1) = 0 := by
      unfold pyRound
      norm_num
    unfold mask_to_table buildRows
    dsimp only
    rw [hpy]
    rfl
  · intro h
    exact Except.noConfusion h

lemma buildRows_error_invalid (mask : Mask3) (ps : ℚ) :
    ∀ l : List TrackPt,
      (∃ tr ∈ l, maskAt mask (tr.frame : ℤ)
          (pyRound (tr.y / ps)) (pyRound (tr.x / ps)) = none) →
      buildRows mask ps l = .error .invalidCentroid := by
  intro l
  induction l with
  | nil =>
    rintro ⟨tr, h, -⟩
    exact absurd h (List.not_mem_nil tr)
  | cons tr0 rest ih =>
    rintro ⟨tr, htr, hnone⟩
    rcases List.mem_cons.mp htr with rfl | htr2
    · have hpf : pointFootprint mask (tr.frame : ℤ)
          (pyRound (tr.x / ps)) (pyRound (tr.y / ps)) = .error .invalidCentroid := by
        unfold pointFootprint
        rw [hnone]
      simp [buildRows, hpf]
    · cases hpf : pointFootprint mask (tr0.frame : ℤ)
          (pyRound (tr0.x / ps)) (pyRound (tr0.y / ps)) with
      | error e =>
        have hne := pointFootprint_ne_outOfFuel mask (tr0.frame : ℤ)
          (pyRound (tr0.x / ps)) (pyRound (tr0.y / ps))
        rw [hpf] at hne
        cases e with
        | invalidCentroid => simp [buildRows, hpf]
        | outOfFuel => exact absurd rfl hne
      | ok completed =>
        have hrest := ih ⟨tr, htr2, hnone⟩
        simp [buildRows, hpf, hrest]

/-- C2 (amended): a centroid whose mask lookup raises IndexError (pixel
index at or beyond the extent, or below minus the extent; a negative index
within minus the extent wraps around Python-style and reads a mirrored
pixel) makes the whole per-cell computation fail with InvalidCentroidError;
but a centroid that lands on a zero mask value inside bounds does not
raise: it yields an empty footprint for that point and the computation
continues. -/
theorem C2_amended_centroid (mask : Mask3) (t px py : ℤ) :
    (maskAt mask t py px = none →
        pointFootprint mask t px py = .error .invalidCentroid)
    ∧ (maskAt mask t py px = some 0 → pointFootprint mask t px py = .ok [])
    ∧ (∀ v : ℕ, maskAt mask t py px = some v →
        pointFootprint mask t px py ≠ .error .invalidCentroid)
    ∧ (∀ (tracks : List TrackPt) (pixel_size : ℚ),
        (∃ tr ∈ tracks, maskAt mask (tr.frame : ℤ)
            (pyRound (tr.y / pixel_size)) (pyRound (tr.x / pixel_size)) = none) →
        mask_to_table tracks mask pixel_size = .error .invalidCentroid) := by
  refine ⟨?_, ?_, ?_, ?_⟩
  · intro h
    unfold pointFootprint
    rw [h]
  · intro h
    unfold pointFootprint
    rw [h]
    simp [floodLoop]
  · intro v h
    unfold pointFootprint
    rw [h]
    dsimp only
    cases floodLoop mask t ((validPix mask t).length + 1)
        (if v = 0 then [] else [(px, py)]) [] with
    | none => simp
    | some completed => simp
  · intro tracks pixel_size hex
    unfold mask_to_table
    rw [buildRows_error_invalid mask pixel_size tracks hex]

/-- C2 (witness): on a one-pixel mask of value 1, a centroid one pixel to
the right of the mask bounds fails with InvalidCentroidError, both at the
point level and for the whole channel computation. -/
theorem C2_amended_centroid_witness :
    pointFootprint [[[1]]] 0 1 0 = .error .invalidCentroid
    ∧ mask_to_table [⟨0, 0, 1, 0⟩] [[[1]]] 1 = .error .invalidCentroid := by
  have h := C2_amended_centroid [[[1]]] 0 1 0
  refine ⟨h.1 (by decide), ?_⟩
  refine h.2.2.2 [⟨0, 0, 1, 0⟩] 1 ⟨⟨0, 0, 1, 0⟩, by simp, ?_⟩
  have hx : pyRound ((1 : ℚ) / 1) = 1 := by
    unfold pyRound
    norm_num
  have hy : pyRound ((0 : ℚ) / 1) = 0 := by
    unfold pyRound
    norm_num
  dsimp only
  rw [hx, hy]
  decide

/-- The first element of a list attaining the minimal key: the element a
stable sort by that key brings to the front.  Used only to state what the
overlap resolution keeps. -/
def firstMinBy (f : FootRow → ℤ) : List FootRow → Option FootRow
  | [] => none
  | a :: l =>
    match firstMinBy f l with
    | none => some a
    | some b => if f b < f a then some b else some a

lemma insertionSort_head_firstMin (f : FootRow → ℤ) (l : List FootRow) :
    (List.insertionSort (fun a b => f a ≤ f b) l).head? = firstMinBy f l := by
  induction l with
  | nil => rfl
  | cons a l ih =>
    rw [List.insertionSort]
    cases hs : List.insertionSort (fun a b => f a ≤ f b) l with
    | nil =>
      have hl : l = [] := by
        have hp := List.perm_insertionSort (fun a b => f a ≤ f b) l
        rw [hs] at hp
        exact (List.Perm.nil_eq hp).symm
      subst hl
      rfl
    | cons b t =>
      rw [hs] at ih
      rw [List.orderedInsert]
      unfold firstMinBy
      rw [← ih]
      simp only [List.head?_cons]
      by_cases hab : f a ≤ f b
      · rw [if_pos hab, if_neg (by omega)]
        rfl
      · rw [if_neg hab, if_pos (by omega)]
        rfl

lemma firstMinBy_cons_isSome (f : FootRow → ℤ) (x : FootRow) (xs : List FootRow) :
    (firstMinBy f (x :: xs)).isSome = true := by
  unfold firstMinBy
  cases firstMinBy f xs with
  | none => rfl
  | some b =>
    dsimp only
    by_cases hb : f b < f x
    · rw [if_pos hb]
      rfl
    · rw [if_neg hb]
      rfl

lemma firstMinBy_spec (f : FootRow → ℤ) :
    ∀ (l : List FootRow) (r : FootRow), firstMinBy f l = some r →
      ∃ l₁ l₂ : List FootRow, l = l₁ ++ r :: l₂
        ∧ (∀ s ∈ l₁, f r < f s) ∧ (∀ s ∈ l, f r ≤ f s) := by
  intro l
  induction l with
  | nil => intro r h; exact Option.noConfusion h
  | cons a l ih =>
    intro r h
    unfold firstMinBy at h
    cases hl : firstMinBy f l with
    | none =>
      rw [hl] at h
      have hra : r = a := by
        cases h
        rfl
      subst hra
      have hnil : l = [] := by
        cases l with
        | nil => rfl
        | cons x xs =>
          have hs := firstMinBy_cons_isSome f x xs
          rw [hl] at hs
          exact absurd hs (by simp)
      subst hnil
      exact ⟨[], [], rfl, by simp, by simp⟩
    | some b =>
      rw [hl] at h
      dsimp only at h
      rcases ih b hl with ⟨l₁, l₂, hsplit, hlt, hle⟩
      by_cases hb : f b < f a
      · rw [if_pos hb] at h
        have hrb : r = b := by
          cases h
          rfl
        subst hrb
        refine ⟨a :: l₁, l₂, by rw [hsplit]; rfl, ?_, ?_⟩
        · intro s hs
          rcases List.mem_cons.mp hs with rfl | hs2
          · exact hb
          · exact hlt s hs2
        · intro s hs
          rcases List.mem_cons.mp hs with rfl | hs2
          · omega
          · exact hle s hs2
      · rw [if_neg hb] at h
        have hra : r = a := by
          cases h
          rfl
        subst hra
        refine ⟨[], l, rfl, by simp, ?_⟩
        intro s hs
        rcases List.mem_cons.mp hs with rfl | hs2
        · exact le_rfl
        · have := hle s hs2
          omega

lemma take_one_head {α : Type} (l : List α) : l.take 1 = l.head?.toList := by
  cases l <;> rfl

lemma rowsAt_unique_nil (df : List FootRow) (k : ℤ × ℤ × ℕ)
    (h2 : 2 ≤ (rowsAt df k).length) : rowsAt (uniqueRows df) k = [] := by
  refine List.filter_eq_nil_iff.mpr ?_
  intro r hr hk
  rcases List.mem_filter.mp hr with ⟨-, hu⟩
  have hkeq : rowKey r = k := by simpa using hk
  have h1 : (rowsAt df (rowKey r)).length = 1 := by simpa using hu
  rw [hkeq] at h1
  omega

lemma rowsAt_dup (df : List FootRow) (k : ℤ × ℤ × ℕ)
    (h2 : 2 ≤ (rowsAt df k).length) : rowsAt (dupRows df) k = rowsAt df k := by
  unfold rowsAt dupRows
  rw [List.filter_filter]
  refine List.filter_congr ?_
  intro r hr
  by_cases hk : rowKey r = k
  · have hne : ((rowsAt df (rowKey r)).length != 1) = true := by
      rw [hk]
      simp only [bne_iff_ne, ne_eq]
      omega
    simp [hk, hne]
    omega
  · simp [hk]

lemma rowsAt_flatMap_blocks (keys : List (ℤ × ℤ × ℕ)) (F : ℤ × ℤ × ℕ → List FootRow)
    (hF : ∀ k' r, r ∈ F k' → rowKey r = k') (k : ℤ × ℤ × ℕ) (hnd : keys.Nodup) :
    rowsAt (keys.flatMap F) k = if k ∈ keys then F k else [] := by
  induction keys with
  | nil => simp [rowsAt]
  | cons q rest ih =>
    rw [List.flatMap_cons]
    unfold rowsAt
    rw [List.filter_append]
    have ih2 := ih (List.nodup_cons.mp hnd).2
    unfold rowsAt at ih2
    by_cases hq : q = k
    · subst hq
      have hself : (F q).filter (fun r => rowKey r == q) = F q :=
        List.filter_eq_self.mpr (fun r hr => by simp [hF q r hr])
      have hknot : q ∉ rest := (List.nodup_cons.mp hnd).1
      rw [hself, ih2, if_neg hknot, if_pos (List.mem_cons_self q rest), List.append_nil]
    · have hnil : (F q).filter (fun r => rowKey r == k) = [] :=
        List.filter_eq_nil_iff.mpr (fun r hr => by simp [hF q r hr, hq])
      rw [hnil, List.nil_append, ih2]
      by_cases hk : k ∈ rest
      · rw [if_pos hk, if_pos (List.mem_cons_of_mem q hk)]
      · rw [if_neg hk, if_neg ?_]
        intro hc
        rcases List.mem_cons.mp hc with hc | hc
        · exact hq hc.symm
        · exact hk hc

lemma dupKeys_nodup (df : List FootRow) : (dupKeys df).Nodup :=
  ((List.perm_insertionSort keyLE _).nodup_iff).mpr (List.nodup_dedup _)

lemma mem_dupKeys (df : List FootRow) (k : ℤ × ℤ × ℕ) :
    k ∈ dupKeys df ↔ ∃ r, r ∈ dupRows df ∧ rowKey r = k := by
  unfold dupKeys
  rw [(List.perm_insertionSort keyLE _).mem_iff, List.mem_dedup, List.mem_map]

/-- C6 (counterexample): two claims on the same pixel whose seed centroids
are equidistant from it are resolved in favour of the row that comes first
in the footprint table (track processing order), here the particle with the
larger id 5, not the lowest id 2 the claim demands. -/
theorem C6_counterexample_tie :
    dist2 (fun _ i => if i == 5 then (1, 0) else (-1, 0)) ⟨0, 0, 5, 0⟩
      = dist2 (fun _ i => if i == 5 then (1, 0) else (-1, 0)) ⟨0, 0, 2, 0⟩
    ∧ resolveOverlaps [⟨0, 0, 5, 0⟩, ⟨0, 0, 2, 0⟩]
        (fun _ i => if i == 5 then (1, 0) else (-1, 0)) = [⟨0, 0, 5, 0⟩]
    ∧ (⟨0, 0, 2, 0⟩ : FootRow) ∉ resolveOverlaps [⟨0, 0, 5, 0⟩, ⟨0, 0, 2, 0⟩]
        (fun _ i => if i == 5 then (1, 0) else (-1, 0)) := by
  refine ⟨by decide, by decide, by decide⟩

/-- C6 (amended): for every pixel-frame key claimed by two or more rows,
the resolution keeps exactly one row: the one with the smallest squared
distance to its seed centroid, and among equidistant claims the one that
appears first in the footprint table; the lowest-id tie rule of the claim
is not what the code implements. -/
theorem C6_amended_closest_first (df : List FootRow) (cent : ℕ → ℤ → ℤ × ℤ)
    (k : ℤ × ℤ × ℕ) (h2 : 2 ≤ (rowsAt df k).length) :
    ∃ (r : FootRow) (l₁ l₂ : List FootRow),
      rowsAt (resolveOverlaps df cent) k = [r]
      ∧ rowsAt df k = l₁ ++ r :: l₂
      ∧ (∀ s ∈ l₁, dist2 cent r < dist2 cent s)
      ∧ (∀ s ∈ rowsAt df k, dist2 cent r ≤ dist2 cent s) := by
  have hF : ∀ (k' : ℤ × ℤ × ℕ) (r : FootRow),
      r ∈ (List.insertionSort (fun a b => dist2 cent a ≤ dist2 cent b)
        (rowsAt (dupRows df) k')).take 1 → rowKey r = k' := by
    intro k' r hr
    have hr2 := (List.perm_insertionSort (fun a b => dist2 cent a ≤ dist2 cent b)
      (rowsAt (dupRows df) k')).mem_iff.mp (List.take_subset 1 _ hr)
    rcases List.mem_filter.mp hr2 with ⟨-, hk⟩
    simpa using hk
  have hsel : rowsAt (resolveOverlaps df cent) k
      = (List.insertionSort (fun a b => dist2 cent a ≤ dist2 cent b)
          (rowsAt df k)).take 1 := by
    unfold resolveOverlaps
    have happ : ∀ X : List FootRow,
        rowsAt (uniqueRows df ++ X) k = rowsAt (uniqueRows df) k ++ rowsAt X k := by
      intro X
      unfold rowsAt
      exact List.filter_append _ _
    rw [happ, rowsAt_unique_nil df k h2, List.nil_append,
      rowsAt_flatMap_blocks _ _ hF k (dupKeys_nodup df)]
    have hkmem : k ∈ dupKeys df := by
      have hne : rowsAt df k ≠ [] := by
        intro hc
        rw [hc] at h2
        simp at h2
      rcases List.exists_mem_of_ne_nil _ hne with ⟨r0, hr0⟩
      rcases List.mem_filter.mp hr0 with ⟨hr0df, hr0k⟩
      have hr0key : rowKey r0 = k := by simpa using hr0k
      refine (mem_dupKeys df k).mpr ⟨r0, ?_, hr0key⟩
      refine List.mem_filter.mpr ⟨hr0df, ?_⟩
      rw [hr0key]
      simp only [bne_iff_ne, ne_eq, decide_eq_true_eq]
      omega
    rw [if_pos hkmem, rowsAt_dup df k h2]
  rw [hsel, take_one_head, insertionSort_head_firstMin]
  cases hfm : firstMinBy (dist2 cent) (rowsAt df k) with
  | none =>
    exfalso
    cases hc : rowsAt df k with
    | nil =>
      rw [hc] at h2
      simp at h2
    | cons x xs =>
      have := firstMinBy_cons_isSome (dist2 cent) x xs
      rw [← hc, hfm] at this
      simp at this
  | some r =>
    rcases firstMinBy_spec _ _ r hfm with ⟨l₁, l₂, hsplit, hlt, hle⟩
    exact ⟨r, l₁, l₂, rfl, hsplit, hlt, hle⟩

/-- C6 (witness): on the two-claim table of the counterexample the kept row
is the first equidistant claim. -/
theorem C6_amended_closest_first_witness :
    2 ≤ (rowsAt [⟨0, 0, 5, 0⟩, ⟨0, 0, 2, 0⟩] (0, 0, 0)).length
    ∧ ∃ (r : FootRow) (l₁ l₂ : List FootRow),
        rowsAt (resolveOverlaps [⟨0, 0, 5, 0⟩, ⟨0, 0, 2, 0⟩]
          (fun _ i => if i == 5 then (1, 0) else (-1, 0))) (0, 0, 0) = [r]
        ∧ rowsAt [⟨0, 0, 5, 0⟩, ⟨0, 0, 2, 0⟩] (0, 0, 0) = l₁ ++ r :: l₂
        ∧ (∀ s ∈ l₁, dist2 (fun _ i => if i == 5 then (1, 0) else (-1, 0)) r
            < dist2 (fun _ i => if i == 5 then (1, 0) else (-1, 0)) s)
        ∧ (∀ s ∈ rowsAt [⟨0, 0, 5, 0⟩, ⟨0, 0, 2, 0⟩] (0, 0, 0),
            dist2 (fun _ i => if i == 5 then (1, 0) else (-1, 0)) r
              ≤ dist2 (fun _ i => if i == 5 then (1, 0) else (-1, 0)) s) :=
  ⟨by decide, C6_amended_closest_first [⟨0, 0, 5, 0⟩, ⟨0, 0, 2, 0⟩]
    (fun _ i => if i == 5 then (1, 0) else (-1, 0)) (0, 0, 0) (by decide)⟩
